import Mathlib

/-
Verification of the 1BRC aggregation engine (src/src/main/go/tmeire/calc.go).

Shallow embedding conventions:
  - bytes are `Nat` values below 256; byte slices are `List Nat`;
  - Go `int64` is modeled as `Int` (all quantities handled by the program stay
    far below 2^63: temperatures are at most 999 tenths in magnitude);
  - Go `uint16`/`uint64` arithmetic carries explicit `% 65536` / `% 2^64`;
  - the 65535-slot bucket array (`make([]*bucket, math.MaxUint16)`, nil
    entries for absent buckets) is modeled as a total map
    `Nat -> Option (List measurement)`;
  - the stateful `fnv.New64a` hasher is reset and fed exactly one key per
    use, so it is modeled by the pure function `fnv64a`;
  - code that can panic (slice-bound or index-bound violations) is modeled
    in the `Option` monad, `none` meaning a runtime panic.
-/

/-- A measurement entry: key bytes, FNV-1a hash of the key, and the running
statistics, mirroring `type measurement struct` in calc.go. -/
structure measurement where
  name : List Nat
  hash : Nat
  min : Int
  max : Int
  sum : Int
  count : Int
deriving DecidableEq, Repr

/-- Embedding of `measurement.Merge`: widen min and max, add sums and counts.
The receiver keeps its own `name` and `hash` fields. -/
def measurement.Merge (m m1 : measurement) : measurement :=
  { m with
    min := if m1.min < m.min then m1.min else m.min
    max := if m1.max > m.max then m1.max else m.max
    sum := m.sum + m1.sum
    count := m.count + m1.count }

/-- Embedding of `parseTemperature`: reads the value field from the end
(last byte is the tenths digit, the byte two before the dot is the units
digit, an optional fourth-from-end byte is a minus sign or the tens digit).
Byte subtraction `b - '0'` is uint8 arithmetic, i.e. `(b + 208) % 256`.
Out-of-bounds indexing (value field shorter than 3 bytes) is a Go panic,
modeled as `none`. -/
def parseTemperature (temp : List Nat) : Option Int :=
  if temp.length < 3 then none
  else
    let d1 : Int := ((temp.getD (temp.length - 1) 0 % 256 + 208) % 256 : Nat)
    let d2 : Int := ((temp.getD (temp.length - 3) 0 % 256 + 208) % 256 : Nat)
    let n : Int := d1 + d2 * 10
    if 3 < temp.length then
      if temp.getD (temp.length - 4) 0 % 256 = 45 then some (-n)
      else
        let d3 : Int := ((temp.getD (temp.length - 4) 0 % 256 + 208) % 256 : Nat)
        let n := n + d3 * 100
        if 4 < temp.length then some (-n) else some n
    else some n

/-- The 64-bit FNV-1a hash of a byte string, as computed by the
`hash/fnv` hasher used in `bucket.AddNew`: starting from the offset basis,
xor each byte in and multiply by the FNV prime, modulo 2^64. -/
def fnv64a (name : List Nat) : Nat :=
  name.foldl (fun h b => ((h ^^^ b % 256) * 1099511628211) % 18446744073709551616)
    14695981039346656037

/-- Embedding of `namehash`: over the last `min (len, 8)` bytes, fold with
`id = id & val` starting from `id = 0` (uint16), where even-indexed bytes
are shifted left by 8 first. -/
def namehash (name : List Nat) : Nat :=
  let l := min name.length 8
  ((name.drop (name.length - l)).enum).foldl
    (fun id ib => Nat.land id (if ib.1 % 2 = 0 then (ib.2 % 256) <<< 8 else ib.2 % 256)) 0

/-- A bucket's `data` slice: the list of measurement entries stored in one
slot of the bucket array.  The `hasher` field of the Go `bucket` struct is
modeled by the pure function `fnv64a`. -/
abbrev bucketData := List measurement

/-- Embedding of `bucket.Add`: linear scan; the first entry whose stored
`hash` equals the incoming entry's `hash` absorbs it via `measurement.Merge`
(in place, position preserved); otherwise the entry is appended at the end.
Identity is decided by hash equality alone. -/
def bucket.Add : bucketData → measurement → bucketData
  | [], m => [m]
  | d :: rest, m =>
      if m.hash = d.hash then d.Merge m :: rest
      else d :: bucket.Add rest m

/-- Inner loop of `bucket.AddNew` once the key's hash `hname` is computed:
the first entry with equal `hash` has its statistics updated in place;
if none matches, a fresh entry with min=max=sum=value and count=1 is
appended.  Identity is decided by hash equality alone. -/
def bucket.AddNewGo (hname : Nat) (name : List Nat) (t : Int) : bucketData → bucketData
  | [] => [⟨name, hname, t, t, t, 1⟩]
  | d :: rest =>
      if hname = d.hash then
        { d with
          min := if t < d.min then t else d.min
          max := if t > d.max then t else d.max
          sum := d.sum + t
          count := d.count + 1 } :: rest
      else d :: bucket.AddNewGo hname name t rest

/-- Embedding of `bucket.AddNew`: hash the key with FNV-1a 64 and run the
update-or-append scan. -/
def bucket.AddNew (b : bucketData) (name : List Nat) (t : Int) : bucketData :=
  bucket.AddNewGo (fnv64a name) name t b

/-- The bucket array, `type measurements []*bucket`: a map from bucket index
to an optional bucket (nil pointers modeled as `none`). -/
abbrev measurements := Nat → Option bucketData

/-- Embedding of `New()`: every one of the 65535 slots is a nil pointer. -/
def New : measurements := fun _ => none

/-- Embedding of `measurements.Add`: compute the bucket index with
`namehash`, allocate an empty bucket if the slot is nil, then `AddNew`. -/
def measurements.Add (m : measurements) (name : List Nat) (t : Int) : measurements :=
  let id := namehash name
  fun i => if i = id then some (bucket.AddNew ((m id).getD []) name t) else m i

/-- Slotwise table produced by `measurements.Merge` along its non-panicking
path: a nil receiver slot adopts `res`'s bucket pointer wholesale, a
non-nil receiver slot absorbs every entry of `res`'s bucket with
`bucket.Add` (the remaining case, nil `res` slot against a non-nil
receiver slot, is the panic handled in `measurements.Merge` below, so its
value here is never observed by the program). -/
def mergeFun (mm res : measurements) : measurements :=
  fun h =>
    match res h with
    | none => mm h
    | some b =>
      match mm h with
      | none => some b
      | some b0 => some (b.foldl bucket.Add b0)

/-- Embedding of `measurements.Merge`: the loop ranges over all 65535 slots
of `res`; a nil receiver slot adopts `res`'s bucket, a non-nil receiver
slot iterates over `b.data` — which dereferences the `res` bucket pointer,
so a nil `res` slot opposite a non-nil receiver slot is a nil-pointer
panic (`none`). -/
def measurements.Merge (mm res : measurements) : Option measurements :=
  if ∀ h ∈ List.range 65535, ¬(mm h ≠ none ∧ res h = none) then some (mergeFun mm res)
  else none

/-- Go slice expression `b[lo:hi]`: defined only when `lo ≤ hi ≤ len(b)`,
otherwise the program panics (`none`). -/
def goSlice (b : List Nat) (lo hi : Nat) : Option (List Nat) :=
  if lo ≤ hi ∧ hi ≤ b.length then some ((b.take hi).drop lo) else none

/-- Main loop of `process`: walk the chunk byte by byte carrying the record
start `ns` and the last-seen `;` position `ne`; at each newline slice out
the name `b[ns:ne]` and the value field `b[ne+1:i]`, parse, and add.
Slice-bound violations and parser index violations are panics (`none`). -/
def processLoop (full : List Nat) :
    List (Nat × Nat) → Nat → Nat → measurements → Option measurements
  | [], _, _, data => some data
  | (i, c) :: rest, ns, ne, data =>
    if c = 59 then processLoop full rest ns i data
    else if c = 10 then
      match goSlice full ns ne with
      | none => none
      | some name =>
        match goSlice full (ne + 1) i with
        | none => none
        | some tb =>
          match parseTemperature tb with
          | none => none
          | some t => processLoop full rest (i + 1) ne (measurements.Add data name t)
    else processLoop full rest ns ne data

/-- Embedding of `process`: strip a single leading newline if present
(`len(b) > 0 && b[0] == '\n'`), then run the scanning loop from
`ns = ne = 0`. -/
def process (data : measurements) (b : List Nat) : Option measurements :=
  let b1 := if b.head? = some 10 then b.tail else b
  processLoop b1 b1.enum 0 0 data

/-- Index of the last line-feed byte in a buffer, mirroring the backward
scan in `collectData` (`for i := ns; i >= 0; i--`). -/
def lastNL : List Nat → Option Nat
  | [] => none
  | b :: bs =>
    match lastNL bs with
    | some i => some (i + 1)
    | none => if b = 10 then some 0 else none

/-- The chunk-production loop of `collectData`, with the read source modeled
as the remaining input list (each `file.Read` returns as many bytes as fit
in the free part of the block buffer).  The fuel argument is an upper bound
on the remaining input length, making the recursion structural; with
`fuel = rem.length` the fuel never runs out before the input does.
On end of input the loop breaks, discarding the carry, exactly as the Go
loop breaks on `io.EOF` without flushing the carried tail. -/
def collectChunksAux (blockSize : Nat) : Nat → List Nat → List Nat → List (List Nat)
  | 0, _, _ => []
  | fuel + 1, carry, rem =>
    let r := rem.take (blockSize - carry.length)
    if r.isEmpty then []
    else
      let buf := carry ++ r
      match lastNL buf with
      | some i =>
          buf.take (i + 1) ::
            collectChunksAux blockSize fuel (buf.drop (i + 1)) (rem.drop r.length)
      | none => buf :: collectChunksAux blockSize fuel [] (rem.drop r.length)

/-- The sequence of chunks `collectData` sends into the worker channel for a
given block size and input byte stream. -/
def collectChunks (blockSize : Nat) (input : List Nat) : List (List Nat) :=
  collectChunksAux blockSize input.length [] input

/-- Modelled from the spec: the round-trip encoder of claim C3, rendering an
integer number of tenths in the shape `-?D{1,2}.D` (sign, one or two
integer digits without a spurious leading zero for two-digit values, a dot,
one fractional digit). -/
def renderTenths (v : Int) : List Nat :=
  let m := v.natAbs
  (if v < 0 then [45] else []) ++
    (if m < 100 then [48 + m / 10, 46, 48 + m % 10]
     else [48 + m / 100, 48 + m / 10 % 10, 46, 48 + m % 10])

/-- Abstract per-key statistics record used to state the claims: the
{min, max, sum, count} quadruple of one table entry. -/
structure Stats where
  min : Int
  max : Int
  sum : Int
  count : Int
deriving DecidableEq, Repr

/-- The statistics view of a measurement entry. -/
def measurement.stats (m : measurement) : Stats :=
  ⟨m.min, m.max, m.sum, m.count⟩

/-- Merge of two statistics records: componentwise min/max and sums, the
pure content of `measurement.Merge`. -/
def Stats.merge (a b : Stats) : Stats :=
  ⟨Min.min a.min b.min, Max.max a.max b.max, a.sum + b.sum, a.count + b.count⟩

/-- Merge of optional statistics, with `none` (no entry) as the identity. -/
def oMerge : Option Stats → Option Stats → Option Stats
  | none, y => y
  | some x, none => some x
  | some x, some y => some (x.merge y)

/-- First entry of a bucket whose stored hash equals `h` (the linear scans
of `bucket.Add` and `bucket.AddNew` both use this first-match discipline). -/
def bucketFindH (h : Nat) : bucketData → Option measurement
  | [] => none
  | d :: rest => if d.hash = h then some d else bucketFindH h rest

/-- Statistics stored in a bucket under hash `h`. -/
def bstat (h : Nat) (b : bucketData) : Option Stats :=
  (bucketFindH h b).map measurement.stats

/-- Statistics stored in a table at bucket index `i` under hash `h`. -/
def statAt (t : measurements) (i h : Nat) : Option Stats :=
  bstat h ((t i).getD [])

/-- Statistics the table associates with a key: look in bucket
`namehash name` for the entry with hash `fnv64a name`. -/
def statsOfName (t : measurements) (name : List Nat) : Option Stats :=
  statAt t (namehash name) (fnv64a name)

/-- Statistics of a single observed value. -/
def singleStat (v : Int) : Stats := ⟨v, v, v, 1⟩

/-- Reference aggregation: fold the records that belong to bucket `i` and
hash `h` into one optional statistics value. -/
def aggAt (rs : List (List Nat × Int)) (i h : Nat) : Option Stats :=
  rs.foldl
    (fun acc r =>
      oMerge acc (if namehash r.1 = i ∧ fnv64a r.1 = h then some (singleStat r.2) else none))
    none

/-- Sequentially add a list of (key, value) records to a table, the way one
worker does across the chunks it consumes. -/
def processRecords (t : measurements) (rs : List (List Nat × Int)) : measurements :=
  rs.foldl (fun t r => measurements.Add t r.1 r.2) t

/-- Fold of worker tables into the collector's accumulator, as `collect`
does: start from `New` and `Merge` each arriving result in, propagating
the panic of any merge step. -/
def foldTables (ts : List measurements) : Option measurements :=
  ts.foldlM measurements.Merge New

/-- A bucket is well-formed when its entries carry pairwise distinct
hashes (every reachable bucket has this shape). -/
def NodupH (b : bucketData) : Prop := (b.map (fun d => d.hash)).Nodup

/-- A table is well-formed when every bucket is. -/
def WFTable (t : measurements) : Prop := ∀ i, NodupH ((t i).getD [])

/-- The two keys of the known FNV-1a-64 collision pair, as ASCII bytes
(the strings 8yn0iYCKYHlIj4-BwPqk and GReLUrM4wMqfg9yzV3KQ). -/
def keyA : List Nat := [56,121,110,48,105,89,67,75,89,72,108,73,106,52,45,66,119,80,113,107]

/-- Second key of the collision pair; byte-distinct from `keyA` but with
the same 64-bit FNV-1a hash. -/
def keyB : List Nat := [71,82,101,76,85,114,77,52,119,77,113,102,103,57,121,122,86,51,75,81]

/-- A key is absent from a table when no entry stored in the bucket the key
maps to carries exactly its bytes. -/
abbrev nameAbsent (t : measurements) (name : List Nat) : Prop :=
  ∀ d ∈ (t (namehash name)).getD [], d.name ≠ name

/-- Folding bitwise-and into an accumulator that starts at zero leaves it
at zero. -/
theorem foldl_land_eq_zero (l : List (Nat × Nat)) (f : Nat × Nat → Nat) :
    l.foldl (fun id ib => Nat.land id (f ib)) 0 = 0 := by
  induction l with
  | nil => rfl
  | cons a l ih =>
      have h0 : Nat.land 0 (f a) = 0 := Nat.zero_and (f a)
      simpa [h0] using ih

/-- Every key hashes to zero under `namehash`. -/
theorem namehash_eq_zero (name : List Nat) : namehash name = 0 := by
  unfold namehash
  exact foldl_land_eq_zero _ _

/-- C10: `namehash` combines with bitwise AND starting from accumulator 0,
so it returns 0 for every key, and `measurements.Add` therefore touches
only bucket index 0 — the 16-bit sharding degenerates to one bucket. -/
theorem C10_namehash_always_zero :
    (∀ name : List Nat, namehash name = 0) ∧
    (∀ (m : measurements) (name : List Nat) (t : Int) (i : Nat),
      i ≠ 0 → measurements.Add m name t i = m i) := by
  refine ⟨namehash_eq_zero, ?_⟩
  intro m name t i hi
  unfold measurements.Add
  simp [namehash_eq_zero name, hi]

/-- Witness for C10 at concrete inputs. -/
theorem C10_namehash_always_zero_witness :
    namehash [72, 105, 33] = 0 ∧ measurements.Add New [72] 5 7 = New 7 :=
  ⟨C10_namehash_always_zero.1 [72, 105, 33],
   C10_namehash_always_zero.2 New [72] 5 7 (by decide)⟩

/-- C7: evaluation at the failing input — merging the freshly created
empty table `New` into a table holding one entry panics: the loop reaches
the receiver's non-nil bucket 0 while `New`'s slot 0 is a nil pointer and
dereferences it (`b.data` on a nil `*bucket`).  The claimed identity
`merge(T, empty) == T` therefore fails for every table with at least one
entry; it holds only for an all-nil receiver. -/
theorem C7_merge_empty_panics :
    measurements.Merge (measurements.Add New [65] 5) New = none ∧
    measurements.Merge New New = some (mergeFun New New) := by
  constructor
  · have hneg : ¬ ∀ h ∈ List.range 65535,
        ¬(measurements.Add New [65] 5 h ≠ none ∧ New h = none) := by
      intro hall
      refine hall 0 (List.mem_range.mpr (by norm_num)) ⟨?_, rfl⟩
      unfold measurements.Add
      rw [namehash_eq_zero, if_pos rfl]
      exact Option.noConfusion
    unfold measurements.Merge
    rw [if_neg hneg]
  · have hguard : ∀ h ∈ List.range 65535,
        ¬((New h : Option bucketData) ≠ none ∧ (New h : Option bucketData) = none) := by
      intro h _ hc
      exact hc.1 rfl
    unfold measurements.Merge
    rw [if_pos hguard]

/-- C9: a chunk whose first byte is the line-feed terminator is processed
exactly like the chunk with that byte removed (the loop runs on the very
same remaining bytes), so no phantom empty-key entry can arise.  The
remaining bytes start with a record, hence not with another line-feed. -/
theorem C9_leading_terminator_stripped :
    ∀ (data : measurements) (rest : List Nat),
      rest.head? ≠ some 10 → process data (10 :: rest) = process data rest := by
  intro data rest h
  simp [process, h]

/-- Witness for C9: a chunk holding one record behind a leading terminator. -/
theorem C9_leading_terminator_stripped_witness :
    process New [10, 65, 59, 49, 46, 48, 10] = process New [65, 59, 49, 46, 48, 10] :=
  C9_leading_terminator_stripped New [65, 59, 49, 46, 48, 10] (by decide)

/-- C8: evaluation of `process` at the failing input
A;10.0 newline B newline C;5.0 newline — the record B lacks a semicolon,
`ne` still points into the previous record, and the slice `b[7:1]` is a
bounds violation: the whole call panics (returns `none`). -/
theorem C8_malformed_record_panics :
    (process New [65,59,49,48,46,48,10,66,10,67,59,53,46,48,10]).isNone = true := by
  decide

/-- C2: evaluation at the failing input — two byte-distinct keys whose
FNV-1a-64 hashes coincide are silently merged into a single entry, because
`bucket.AddNew` compares stored hashes only, never key bytes. -/
theorem C2_distinct_keys_merged :
    keyA ≠ keyB ∧ fnv64a keyA = fnv64a keyB ∧
    (((measurements.Add (measurements.Add New keyA 10) keyB 20) 0).getD []).length = 1 ∧
    statsOfName (measurements.Add (measurements.Add New keyA 10) keyB 20) keyB =
      some ⟨10, 20, 30, 2⟩ := by
  decide

/-- C5 counterexample: adding a key that is byte-absent from the table does
not insert a fresh count-1 entry when its hash collides with a stored
entry; the statistics of the colliding entry absorb the value instead. -/
theorem C5_absent_key_not_inserted :
    keyA ≠ keyB ∧ nameAbsent (measurements.Add New keyA 10) keyB ∧
    statsOfName (measurements.Add (measurements.Add New keyA 10) keyB 20) keyB ≠
      some ⟨20, 20, 20, 1⟩ := by
  decide

/-- C3: the Fixed-Point Parser is exact on the shape sign? D{1,2}.D —
parsing the canonical rendering of any tenths value in [-999, 999] returns
exactly that value — and it fails (bounds-violation panic) exactly on
inputs shorter than three bytes. -/
theorem C3_parse_roundtrip :
    (∀ v : Int, -999 ≤ v → v ≤ 999 → parseTemperature (renderTenths v) = some v) ∧
    (∀ temp : List Nat, parseTemperature temp = none ↔ temp.length < 3) := by
  constructor
  · intro v h1 h2
    rcases le_or_lt 0 v with hv | hv
    · by_cases hlt : v.natAbs < 100
      · have hr : renderTenths v =
            [48 + v.natAbs / 10, 46, 48 + v.natAbs % 10] := by
          simp [renderTenths, hlt, not_lt.mpr hv]
        rw [hr]
        simp [parseTemperature, List.getD, -Int.natCast_natAbs]
        omega
      · have hr : renderTenths v =
            [48 + v.natAbs / 100, 48 + v.natAbs / 10 % 10, 46, 48 + v.natAbs % 10] := by
          simp [renderTenths, hlt, not_lt.mpr hv]
        rw [hr]
        have e4 : (48 + v.natAbs / 100) % 256 ≠ 45 := by omega
        simp [parseTemperature, List.getD, e4, -Int.natCast_natAbs]
        omega
    · by_cases hlt : v.natAbs < 100
      · have hr : renderTenths v =
            [45, 48 + v.natAbs / 10, 46, 48 + v.natAbs % 10] := by
          simp [renderTenths, hlt, hv]
        rw [hr]
        simp [parseTemperature, List.getD, -Int.natCast_natAbs]
        omega
      · have hr : renderTenths v =
            [45, 48 + v.natAbs / 100, 48 + v.natAbs / 10 % 10, 46, 48 + v.natAbs % 10] := by
          simp [renderTenths, hlt, hv]
        rw [hr]
        have e4 : (48 + v.natAbs / 100) % 256 ≠ 45 := by omega
        simp [parseTemperature, List.getD, e4, -Int.natCast_natAbs]
        omega
  · intro temp
    constructor
    · intro h
      simp only [parseTemperature] at h
      split_ifs at h
      assumption
    · intro h
      simp [parseTemperature, h]

/-- Witness for C3 at a concrete negative two-digit value. -/
theorem C3_parse_roundtrip_witness :
    parseTemperature (renderTenths (-374)) = some (-374) :=
  C3_parse_roundtrip.1 (-374) (by decide) (by decide)

/-- A buffer has no line-feed exactly when the backward scan finds none. -/
theorem lastNL_eq_none_iff (b : List Nat) : lastNL b = none ↔ 10 ∉ b := by
  induction b with
  | nil => simp [lastNL]
  | cons x xs ih =>
    simp only [lastNL]
    cases h : lastNL xs with
    | some i =>
        have h10 : 10 ∈ xs := by
          by_contra hc
          rw [ih.mpr hc] at h
          exact Option.noConfusion h
        simp [List.mem_cons, h10]
    | none =>
        have h10 : 10 ∉ xs := ih.mp h
        by_cases hx : x = 10
        · simp [hx, List.mem_cons]
        · have hne : (10 : Nat) ∉ x :: xs := by
            simp only [List.mem_cons, not_or]
            exact ⟨fun hc => hx hc.symm, h10⟩
          simp [hx, hne]

theorem lastNL_spec (b : List Nat) (i : Nat) (h : lastNL b = some i) :
    i < b.length ∧ b[i]? = some 10 ∧ 10 ∉ b.drop (i + 1) := by
  induction b generalizing i with
  | nil => exact Option.noConfusion h
  | cons x xs ih =>
    simp only [lastNL] at h
    cases hx : lastNL xs with
    | some j =>
        rw [hx] at h
        obtain rfl : j + 1 = i := Option.some.inj h
        obtain ⟨h1, h2, h3⟩ := ih j hx
        exact ⟨by simpa using h1, by simpa using h2, by simpa using h3⟩
    | none =>
        rw [hx] at h
        split_ifs at h with hx10
        obtain rfl : (0 : Nat) = i := Option.some.inj h
        subst hx10
        refine ⟨by simp, by simp, ?_⟩
        simpa using lastNL_eq_none_iff xs |>.mp hx

theorem take_last_ten (b : List Nat) (i : Nat) (hv : b[i]? = some 10) :
    (b.take (i + 1)).getLast? = some 10 := by
  rw [List.take_succ, hv]
  simp

theorem drop_length_take (l : List Nat) (n : Nat) :
    l.drop (l.take n).length = l.drop n := by
  rw [List.length_take]
  rcases Nat.le_total n l.length with h | h
  · rw [Nat.min_eq_left h]
  · rw [Nat.min_eq_right h, List.drop_eq_nil_of_le h, List.drop_eq_nil_of_le (le_refl _)]

theorem collectChunksAux_spec (bs : Nat) (hbs : 0 < bs) :
    ∀ (fuel : Nat) (carry rem : List Nat),
      rem.length ≤ fuel → carry.length < bs → 10 ∉ carry →
      (∃ t, carry ++ rem = (collectChunksAux bs fuel carry rem).flatten ++ t ∧ 10 ∉ t) ∧
      (∀ c ∈ collectChunksAux bs fuel carry rem,
        c ≠ [] ∧ (c.getLast? = some 10 ∨ 10 ∉ c)) := by
  intro fuel
  induction fuel with
  | zero =>
      intro carry rem hle hcb hc
      have hrem : rem = [] := List.length_eq_zero.mp (Nat.le_zero.mp hle)
      subst hrem
      simp only [collectChunksAux]
      exact ⟨⟨carry, by simp, hc⟩, by simp⟩
  | succ fuel ih =>
      intro carry rem hle hcb hc
      simp only [collectChunksAux]
      by_cases hr : (rem.take (bs - carry.length)).isEmpty
      · rw [if_pos hr]
        have hrem : rem = [] := by
          cases rem with
          | nil => rfl
          | cons a l =>
              obtain ⟨k, hk⟩ : ∃ k, bs - carry.length = k + 1 :=
                ⟨bs - carry.length - 1, by omega⟩
              rw [hk] at hr
              simp [List.take] at hr
        subst hrem
        exact ⟨⟨carry, by simp, hc⟩, by simp⟩
      · rw [if_neg hr]
        have hrne : rem.take (bs - carry.length) ≠ [] := by
          simpa [List.isEmpty_iff] using hr
        have hrlen1 : 0 < (rem.take (bs - carry.length)).length :=
          List.length_pos.mpr hrne
        have hrle : (rem.take (bs - carry.length)).length ≤ bs - carry.length := by
          rw [List.length_take]; omega
        have hremlen : (rem.take (bs - carry.length)).length ≤ rem.length := by
          rw [List.length_take]; omega
        have hbuflen : (carry ++ rem.take (bs - carry.length)).length ≤ bs := by
          rw [List.length_append]; omega
        have hremsplit :
            rem.take (bs - carry.length) ++ rem.drop (rem.take (bs - carry.length)).length
              = rem := by
          rw [drop_length_take]
          exact List.take_append_drop _ rem
        have hremlen' : (rem.drop (rem.take (bs - carry.length)).length).length ≤ fuel := by
          rw [List.length_drop]; omega
        cases hnl : lastNL (carry ++ rem.take (bs - carry.length)) with
        | some i =>
            obtain ⟨hlt, hget, hdrop⟩ := lastNL_spec _ i hnl
            have hcarry' :
                ((carry ++ rem.take (bs - carry.length)).drop (i + 1)).length < bs := by
              rw [List.length_drop]; omega
            obtain ⟨⟨t, he, ht⟩, hch⟩ :=
              ih ((carry ++ rem.take (bs - carry.length)).drop (i + 1))
                (rem.drop (rem.take (bs - carry.length)).length) hremlen' hcarry' hdrop
            constructor
            · refine ⟨t, ?_, ht⟩
              calc carry ++ rem
                  = carry ++ (rem.take (bs - carry.length)
                      ++ rem.drop (rem.take (bs - carry.length)).length) := by
                    rw [hremsplit]
                _ = (carry ++ rem.take (bs - carry.length))
                      ++ rem.drop (rem.take (bs - carry.length)).length := by
                    rw [List.append_assoc]
                _ = ((carry ++ rem.take (bs - carry.length)).take (i + 1)
                      ++ (carry ++ rem.take (bs - carry.length)).drop (i + 1))
                      ++ rem.drop (rem.take (bs - carry.length)).length := by
                    rw [List.take_append_drop]
                _ = (carry ++ rem.take (bs - carry.length)).take (i + 1)
                      ++ ((carry ++ rem.take (bs - carry.length)).drop (i + 1)
                      ++ rem.drop (rem.take (bs - carry.length)).length) := by
                    rw [List.append_assoc]
                _ = (carry ++ rem.take (bs - carry.length)).take (i + 1)
                      ++ ((collectChunksAux bs fuel
                            ((carry ++ rem.take (bs - carry.length)).drop (i + 1))
                            (rem.drop (rem.take (bs - carry.length)).length)).flatten ++ t) := by
                    rw [he]
                _ = ((carry ++ rem.take (bs - carry.length)).take (i + 1)
                      :: collectChunksAux bs fuel
                            ((carry ++ rem.take (bs - carry.length)).drop (i + 1))
                            (rem.drop (rem.take (bs - carry.length)).length)).flatten ++ t := by
                    simp [List.flatten]
            · intro c hcmem
              rcases List.mem_cons.mp hcmem with hc1 | hc2
              · subst hc1
                constructor
                · have : 0 < ((carry ++ rem.take (bs - carry.length)).take (i + 1)).length := by
                    rw [List.length_take]; omega
                  exact List.ne_nil_of_length_pos this
                · exact Or.inl (take_last_ten _ i hget)
              · exact hch c hc2
        | none =>
            have hnb : 10 ∉ carry ++ rem.take (bs - carry.length) :=
              (lastNL_eq_none_iff _).mp hnl
            obtain ⟨⟨t, he, ht⟩, hch⟩ :=
              ih [] (rem.drop (rem.take (bs - carry.length)).length) hremlen' hbs (by simp)
            constructor
            · refine ⟨t, ?_, ht⟩
              calc carry ++ rem
                  = (carry ++ rem.take (bs - carry.length))
                      ++ rem.drop (rem.take (bs - carry.length)).length := by
                    rw [List.append_assoc, hremsplit]
                _ = (carry ++ rem.take (bs - carry.length))
                      ++ ([] ++ rem.drop (rem.take (bs - carry.length)).length) := by simp
                _ = (carry ++ rem.take (bs - carry.length))
                      ++ ((collectChunksAux bs fuel []
                            (rem.drop (rem.take (bs - carry.length)).length)).flatten ++ t) := by
                    rw [he]
                _ = ((carry ++ rem.take (bs - carry.length))
                      :: collectChunksAux bs fuel []
                            (rem.drop (rem.take (bs - carry.length)).length)).flatten ++ t := by
                    simp [List.flatten]
            · intro c hcmem
              rcases List.mem_cons.mp hcmem with hc1 | hc2
              · subst hc1
                refine ⟨?_, Or.inr hnb⟩
                intro hnil
                rw [hnil] at hnb
                exact hrne (by simpa using List.append_eq_nil.mp hnil |>.2)
              · exact hch c hc2


/-- C4 (amended): for every positive block size, the splitter emits a finite
sequence of non-empty chunks whose concatenation is a prefix of the input
with a line-feed-free suffix left over (an unterminated trailing segment is
dropped at end of stream rather than emitted), and every chunk either ends
with the line-feed terminator or contains no line-feed at all (a block with
no terminator is emitted whole, so a record can be split mid-stream). -/
theorem C4_chunks_amended :
    ∀ (bs : Nat) (input : List Nat), 0 < bs →
      (∃ t, input = (collectChunks bs input).flatten ++ t ∧ 10 ∉ t) ∧
      (∀ c ∈ collectChunks bs input, c ≠ [] ∧ (c.getLast? = some 10 ∨ 10 ∉ c)) := by
  intro bs input hbs
  have h := collectChunksAux_spec bs hbs input.length [] input (le_refl _) hbs (by simp)
  simpa [collectChunks] using h

/-- Witness for the amended C4, at block size 4 on the input a LF b c. -/
theorem C4_chunks_amended_witness :
    (∃ t, [97, 10, 98, 99] = (collectChunks 4 [97, 10, 98, 99]).flatten ++ t ∧ 10 ∉ t) ∧
    (∀ c ∈ collectChunks 4 [97, 10, 98, 99],
      c ≠ [] ∧ (c.getLast? = some 10 ∨ 10 ∉ c)) :=
  C4_chunks_amended 4 [97, 10, 98, 99] (by decide)

/-- C4 counterexample: with block size 4 and input a LF b c, the trailing
unterminated bytes b c are read into the carry and then dropped at end of
stream, so the chunks do not concatenate back to the input; and with block
size 2 on input a b c LF, the first emitted chunk a b does not end with the
terminator even though it is not the final chunk — the record is split. -/
theorem C4_chunks_counterexample :
    ((collectChunks 4 [97, 10, 98, 99]).flatten ≠ [97, 10, 98, 99]) ∧
    collectChunks 2 [97, 98, 99, 10] = [[97, 98], [99, 10]] ∧
    ([97, 98] : List Nat).getLast? ≠ some 10 := by
  decide

/-- A conditional update of the form "new value if smaller" is the minimum. -/
theorem ite_lt_eq_min (a t : Int) : (if t < a then t else a) = Min.min a t := by
  rw [min_def]
  split_ifs <;> omega

/-- A conditional update of the form "new value if larger" is the maximum. -/
theorem ite_gt_eq_max (a t : Int) : (if t > a then t else a) = Max.max a t := by
  rw [max_def]
  split_ifs <;> omega

/-- Statistics merge is commutative. -/
theorem Stats.merge_comm (a b : Stats) : a.merge b = b.merge a := by
  simp [Stats.merge, min_comm, max_comm, Int.add_comm]

/-- Statistics merge is associative. -/
theorem Stats.merge_assoc (a b c : Stats) :
    (a.merge b).merge c = a.merge (b.merge c) := by
  simp [Stats.merge, min_assoc, max_assoc, Int.add_assoc]

/-- Merging no entry on the left is the identity. -/
theorem oMerge_none_left (x : Option Stats) : oMerge none x = x := rfl

/-- Merging no entry on the right is the identity. -/
theorem oMerge_none_right (x : Option Stats) : oMerge x none = x := by
  cases x <;> rfl

/-- Optional-statistics merge is commutative. -/
theorem oMerge_comm (x y : Option Stats) : oMerge x y = oMerge y x := by
  cases x <;> cases y <;> simp [oMerge, Stats.merge_comm]

/-- Optional-statistics merge is associative. -/
theorem oMerge_assoc (x y z : Option Stats) :
    oMerge (oMerge x y) z = oMerge x (oMerge y z) := by
  cases x <;> cases y <;> cases z <;> simp [oMerge, Stats.merge_assoc]

/-- Effect of the `bucket.AddNew` scan on the statistics stored under any
hash: the slot of `hname` absorbs a singleton via `oMerge`, all other slots
are untouched. -/
theorem bstat_AddNewGo (hname : Nat) (name : List Nat) (t : Int) (h : Nat) :
    ∀ b : bucketData,
      bstat h (bucket.AddNewGo hname name t b) =
        if hname = h then oMerge (bstat h b) (some (singleStat t)) else bstat h b := by
  intro b
  induction b with
  | nil =>
      by_cases hh : hname = h <;>
        simp [bucket.AddNewGo, bstat, bucketFindH, hh, oMerge, singleStat, measurement.stats]
  | cons d rest ih =>
      by_cases hd : hname = d.hash
      · by_cases hh : d.hash = h
        · subst hh
          subst hd
          simp [bucket.AddNewGo, bstat, bucketFindH, oMerge, singleStat,
            measurement.stats, Stats.merge, ite_lt_eq_min, ite_gt_eq_max]
        · have hne : hname ≠ h := by rw [hd]; exact hh
          simp [bucket.AddNewGo, hd, bstat, bucketFindH, hh, hne]
      · by_cases hh : d.hash = h
        · have hne : hname ≠ h := fun hc => hd (hc.trans hh.symm)
          simp [bucket.AddNewGo, hd, bstat, bucketFindH, hh, hne]
        · simpa [bucket.AddNewGo, hd, bstat, bucketFindH, hh] using ih

/-- Effect of the `bucket.Add` scan on the statistics stored under any hash:
the slot of the incoming entry's hash absorbs its statistics via `oMerge`,
all other slots are untouched. -/
theorem bstat_Add (m : measurement) (h : Nat) :
    ∀ b : bucketData,
      bstat h (bucket.Add b m) =
        if m.hash = h then oMerge (bstat h b) (some m.stats) else bstat h b := by
  intro b
  induction b with
  | nil =>
      by_cases hh : m.hash = h <;>
        simp [bucket.Add, bstat, bucketFindH, hh, oMerge, measurement.stats]
  | cons d rest ih =>
      by_cases hd : m.hash = d.hash
      · by_cases hh : d.hash = h
        · have hmh : m.hash = h := hd.trans hh
          simp [bucket.Add, hd, bstat, bucketFindH, measurement.Merge, hh, hmh,
            oMerge, measurement.stats, Stats.merge, ite_lt_eq_min, ite_gt_eq_max]
        · have hne : m.hash ≠ h := by rw [hd]; exact hh
          simp [bucket.Add, hd, bstat, bucketFindH, measurement.Merge, hh, hne]
      · by_cases hh : d.hash = h
        · have hne : m.hash ≠ h := fun hc => hd (hc.trans hh.symm)
          simp [bucket.Add, hd, bstat, bucketFindH, hh, hne]
        · simpa [bucket.Add, hd, bstat, bucketFindH, hh] using ih

/-- The hash list of a bucket after an `AddNewGo` scan: unchanged when the
hash was already present, extended by it at the end otherwise. -/
theorem AddNewGo_hashes (hname : Nat) (name : List Nat) (t : Int) :
    ∀ b : bucketData,
      (bucket.AddNewGo hname name t b).map (fun d => d.hash) =
        if hname ∈ b.map (fun d => d.hash) then b.map (fun d => d.hash)
        else b.map (fun d => d.hash) ++ [hname] := by
  intro b
  induction b with
  | nil => simp [bucket.AddNewGo]
  | cons d rest ih =>
      by_cases hd : hname = d.hash
      · simp [bucket.AddNewGo, hd]
      · have : (hname ∈ d.hash :: rest.map fun d => d.hash) ↔
            (hname ∈ rest.map fun d => d.hash) := by
          simp [List.mem_cons, hd]
        by_cases hm : hname ∈ rest.map fun d => d.hash <;>
          simp [bucket.AddNewGo, hd, hm, ih, this]

/-- The hash list of a bucket after a `bucket.Add` scan: unchanged when the
hash was already present, extended by it at the end otherwise. -/
theorem Add_hashes (m : measurement) :
    ∀ b : bucketData,
      (bucket.Add b m).map (fun d => d.hash) =
        if m.hash ∈ b.map (fun d => d.hash) then b.map (fun d => d.hash)
        else b.map (fun d => d.hash) ++ [m.hash] := by
  intro b
  induction b with
  | nil => simp [bucket.Add]
  | cons d rest ih =>
      by_cases hd : m.hash = d.hash
      · simp [bucket.Add, hd, measurement.Merge]
      · have : (m.hash ∈ d.hash :: rest.map fun d => d.hash) ↔
            (m.hash ∈ rest.map fun d => d.hash) := by
          simp [List.mem_cons, hd]
        by_cases hm : m.hash ∈ rest.map fun d => d.hash <;>
          simp [bucket.Add, hd, hm, ih, this]

/-- The `AddNew` scan preserves distinctness of stored hashes. -/
theorem NodupH_AddNewGo (hname : Nat) (name : List Nat) (t : Int) (b : bucketData)
    (hb : NodupH b) : NodupH (bucket.AddNewGo hname name t b) := by
  unfold NodupH at hb ⊢
  rw [AddNewGo_hashes]
  split_ifs with hmem
  · exact hb
  · have hd : ∀ x ∈ b, ¬ x.hash = hname :=
      fun x hx hc => hmem (List.mem_map.mpr ⟨x, hx, hc⟩)
    simpa [List.nodup_append] using ⟨hb, hd⟩

/-- The `bucket.Add` scan preserves distinctness of stored hashes. -/
theorem NodupH_Add (m : measurement) (b : bucketData) (hb : NodupH b) :
    NodupH (bucket.Add b m) := by
  unfold NodupH at hb ⊢
  rw [Add_hashes]
  split_ifs with hmem
  · exact hb
  · have hd : ∀ x ∈ b, ¬ x.hash = m.hash :=
      fun x hx hc => hmem (List.mem_map.mpr ⟨x, hx, hc⟩)
    simpa [List.nodup_append] using ⟨hb, hd⟩

/-- Folding a list of entries into a bucket with `bucket.Add` preserves
distinctness of stored hashes. -/
theorem NodupH_foldAdd (ms : List measurement) :
    ∀ b0 : bucketData, NodupH b0 → NodupH (ms.foldl bucket.Add b0) := by
  induction ms with
  | nil => intro b0 h; exact h
  | cons m rest ih => intro b0 h; exact ih _ (NodupH_Add m b0 h)

/-- A hash that no entry of a bucket carries has no statistics there. -/
theorem bstat_eq_none_of_not_mem (h : Nat) :
    ∀ b : bucketData, h ∉ b.map (fun d => d.hash) → bstat h b = none := by
  intro b
  induction b with
  | nil => intro _; rfl
  | cons d rest ih =>
      intro hmem
      have h1 : d.hash ≠ h := by
        intro hc; exact hmem (by simp [hc])
      have h2 : h ∉ rest.map fun d => d.hash := by
        intro hc; exact hmem (by simp [hc])
      simpa [bstat, bucketFindH, h1] using ih h2

/-- Folding the entries of a hash-distinct source bucket into a target
bucket combines the statistics under every hash with `oMerge`. -/
theorem bstat_foldAdd (h : Nat) :
    ∀ (ms : List measurement) (b0 : bucketData), NodupH ms →
      bstat h (ms.foldl bucket.Add b0) = oMerge (bstat h b0) (bstat h ms) := by
  intro ms
  induction ms with
  | nil =>
      intro b0 _
      simp [bstat, bucketFindH, oMerge_none_right]
  | cons m rest ih =>
      intro b0 hnd
      have hnd' : NodupH rest := by
        unfold NodupH at hnd ⊢
        exact (List.nodup_cons.mp hnd).2
      have hmem : m.hash ∉ rest.map fun d => d.hash := by
        unfold NodupH at hnd
        exact (List.nodup_cons.mp hnd).1
      rw [List.foldl_cons, ih _ hnd', bstat_Add]
      by_cases hh : m.hash = h
      · rw [if_pos hh, bstat_eq_none_of_not_mem h rest (hh ▸ hmem), oMerge_none_right]
        simp [bstat, bucketFindH, hh]
      · rw [if_neg hh]
        simp [bstat, bucketFindH, hh]

/-- Effect of `measurements.Add` on the statistics at any bucket/hash pair:
the key's own bucket-and-hash slot absorbs a singleton, everything else is
untouched. -/
theorem statAt_Add (t : measurements) (name : List Nat) (v : Int) (i h : Nat) :
    statAt (measurements.Add t name v) i h =
      if i = namehash name ∧ h = fnv64a name
      then oMerge (statAt t i h) (some (singleStat v))
      else statAt t i h := by
  unfold statAt measurements.Add
  by_cases hi : i = namehash name
  · subst hi
    rw [if_pos rfl]
    by_cases hh : h = fnv64a name
    · rw [if_pos ⟨rfl, hh⟩]
      subst hh
      simp only [Option.getD_some]
      rw [bucket.AddNew, bstat_AddNewGo, if_pos rfl]
    · rw [if_neg fun hc => hh hc.2]
      simp only [Option.getD_some]
      rw [bucket.AddNew, bstat_AddNewGo, if_neg fun hc => hh hc.symm]
  · rw [if_neg hi, if_neg fun hc => hi hc.1]

/-- The freshly created table is well-formed. -/
theorem WF_New : WFTable New := by
  intro i
  simp [New, NodupH]

/-- `measurements.Add` preserves table well-formedness. -/
theorem WF_Add (t : measurements) (name : List Nat) (v : Int) (ht : WFTable t) :
    WFTable (measurements.Add t name v) := by
  intro i
  unfold measurements.Add
  by_cases hi : i = namehash name
  · subst hi
    simpa [bucket.AddNew] using
      NodupH_AddNewGo (fnv64a name) name v _ (ht (namehash name))
  · simpa [hi] using ht i

/-- Effect of the non-panicking merge path on the statistics at any
bucket/hash pair, provided the merged-in table is well-formed: the
statistics of the two tables are combined slotwise with `oMerge`. -/
theorem statAt_mergeFun (t1 t2 : measurements) (h2 : WFTable t2) (i h : Nat) :
    statAt (mergeFun t1 t2) i h = oMerge (statAt t1 i h) (statAt t2 i h) := by
  unfold statAt mergeFun
  cases ht2 : t2 i with
  | none =>
      simp [ht2, bstat, bucketFindH, oMerge_none_right]
  | some b =>
      cases ht1 : t1 i with
      | none => simp [ht2, ht1, bstat, bucketFindH, oMerge_none_left]
      | some b0 =>
          have hnb : NodupH b := by
            have := h2 i
            rwa [ht2] at this
          simpa [ht2, ht1] using bstat_foldAdd h b b0 hnb

/-- The non-panicking merge path preserves table well-formedness. -/
theorem WF_mergeFun (t1 t2 : measurements) (h1 : WFTable t1) (h2 : WFTable t2) :
    WFTable (mergeFun t1 t2) := by
  intro i
  unfold mergeFun
  cases ht2 : t2 i with
  | none =>
      have := h1 i
      simpa [ht2] using this
  | some b =>
      cases ht1 : t1 i with
      | none =>
          have := h2 i
          simpa [ht2, ht1] using this
      | some b0 =>
          have hb0 : NodupH b0 := by
            have := h1 i
            rwa [ht1] at this
          simpa [ht2, ht1] using NodupH_foldAdd b b0 hb0

/-- Peeling the accumulator out of a fold of `oMerge` combinations. -/
theorem foldl_oMerge_acc {α : Type} (k : α → Option Stats) :
    ∀ (l : List α) (a : Option Stats),
      l.foldl (fun acc x => oMerge acc (k x)) a =
        oMerge a (l.foldl (fun acc x => oMerge acc (k x)) none) := by
  intro l
  induction l with
  | nil => intro a; exact (oMerge_none_right a).symm
  | cons x xs ih =>
      intro a
      rw [List.foldl_cons, List.foldl_cons, ih (oMerge a (k x)),
        ih (oMerge none (k x)), oMerge_none_left, oMerge_assoc]

/-- Processing a record list on top of a table combines, at every
bucket/hash pair, the table's statistics with the records' aggregate. -/
theorem statAt_processRecords (i h : Nat) :
    ∀ (rs : List (List Nat × Int)) (t : measurements),
      statAt (processRecords t rs) i h = oMerge (statAt t i h) (aggAt rs i h) := by
  intro rs
  induction rs with
  | nil =>
      intro t
      exact (oMerge_none_right _).symm
  | cons r rest ih =>
      intro t
      unfold processRecords at ih ⊢
      rw [List.foldl_cons, ih, statAt_Add]
      unfold aggAt
      rw [List.foldl_cons,
        foldl_oMerge_acc
          (fun r : List Nat × Int =>
            if namehash r.1 = i ∧ fnv64a r.1 = h then some (singleStat r.2) else none)
          rest
          (oMerge none
            (if namehash r.1 = i ∧ fnv64a r.1 = h then some (singleStat r.2) else none)),
        oMerge_none_left]
      by_cases hp : namehash r.1 = i ∧ fnv64a r.1 = h
      · rw [if_pos hp, if_pos ⟨hp.1.symm, hp.2.symm⟩, oMerge_assoc]
      · have hp' : ¬ (i = namehash r.1 ∧ h = fnv64a r.1) :=
          fun hc => hp ⟨hc.1.symm, hc.2.symm⟩
        rw [if_neg hp, if_neg hp', oMerge_none_left]

/-- Processing records preserves table well-formedness. -/
theorem WF_processRecords :
    ∀ (rs : List (List Nat × Int)) (t : measurements),
      WFTable t → WFTable (processRecords t rs) := by
  intro rs
  induction rs with
  | nil => intro t ht; exact ht
  | cons r rest ih =>
      intro t ht
      unfold processRecords at ih ⊢
      rw [List.foldl_cons]
      exact ih _ (WF_Add t r.1 r.2 ht)

/-- Folding a list of well-formed tables into an accumulator along the
non-panicking merge path combines, at every bucket/hash pair, their
statistics with `oMerge`. -/
theorem statAt_foldMerge (i h : Nat) :
    ∀ (ts : List measurements) (acc : measurements),
      (∀ t ∈ ts, WFTable t) →
      statAt (ts.foldl mergeFun acc) i h =
        oMerge (statAt acc i h)
          (ts.foldl (fun a tt => oMerge a (statAt tt i h)) none) := by
  intro ts
  induction ts with
  | nil =>
      intro acc _
      exact (oMerge_none_right _).symm
  | cons t rest ih =>
      intro acc hwf
      rw [List.foldl_cons, List.foldl_cons,
        ih _ (fun u hu => hwf u (List.mem_cons_of_mem t hu)),
        statAt_mergeFun acc t (hwf t (List.mem_cons_self t rest)) i h,
        foldl_oMerge_acc (fun tt : measurements => statAt tt i h) rest
          (oMerge none (statAt t i h)),
        oMerge_none_left, oMerge_assoc]

/-- The record aggregate distributes over list concatenation. -/
theorem aggAt_append (l1 l2 : List (List Nat × Int)) (i h : Nat) :
    aggAt (l1 ++ l2) i h = oMerge (aggAt l1 i h) (aggAt l2 i h) := by
  unfold aggAt
  rw [List.foldl_append]
  exact foldl_oMerge_acc _ l2 _

/-- The record aggregate of a flattened partition is the fold of the
per-part aggregates. -/
theorem aggAt_flatten (i h : Nat) :
    ∀ parts : List (List (List Nat × Int)),
      aggAt parts.flatten i h =
        parts.foldl (fun a p => oMerge a (aggAt p i h)) none := by
  intro parts
  induction parts with
  | nil => rfl
  | cons p ps ih =>
      rw [List.flatten_cons, aggAt_append, ih, List.foldl_cons,
        foldl_oMerge_acc (fun p : List (List Nat × Int) => aggAt p i h) ps
          (oMerge none (aggAt p i h)),
        oMerge_none_left]

/-- The record aggregate is invariant under permutation of the records. -/
theorem aggAt_perm (rs rs' : List (List Nat × Int)) (i h : Nat)
    (p : rs.Perm rs') : aggAt rs i h = aggAt rs' i h := by
  unfold aggAt
  exact p.foldl_eq'
    (fun x _ y _ z => by rw [oMerge_assoc, oMerge_assoc, oMerge_comm
      (if namehash x.1 = i ∧ fnv64a x.1 = h then some (singleStat x.2) else none)
      (if namehash y.1 = i ∧ fnv64a y.1 = h then some (singleStat y.2) else none)])
    none

/-- The empty table holds no statistics anywhere. -/
theorem statAt_New (i h : Nat) : statAt New i h = none := by
  simp [statAt, New, bstat, bucketFindH]

/-- Shape of every table that reaches the collector: only bucket 0 can be
occupied, since `namehash` is constantly 0. -/
def ZeroShaped (t : measurements) : Prop := ∀ h : Nat, h ≠ 0 → t h = none

/-- The empty table is zero-shaped. -/
theorem ZeroShaped_New : ZeroShaped New := fun _ _ => rfl

/-- Adding a record keeps a table zero-shaped. -/
theorem ZeroShaped_Add (t : measurements) (name : List Nat) (v : Int)
    (ht : ZeroShaped t) : ZeroShaped (measurements.Add t name v) := by
  intro h hh
  unfold measurements.Add
  rw [namehash_eq_zero name, if_neg hh]
  exact ht h hh

/-- Processing records keeps a table zero-shaped. -/
theorem ZeroShaped_processRecords :
    ∀ (rs : List (List Nat × Int)) (t : measurements),
      ZeroShaped t → ZeroShaped (processRecords t rs) := by
  intro rs
  induction rs with
  | nil => intro t ht; exact ht
  | cons r rest ih =>
      intro t ht
      unfold processRecords at ih ⊢
      rw [List.foldl_cons]
      exact ih _ (ZeroShaped_Add t r.1 r.2 ht)

/-- The non-panicking merge path keeps zero-shaped tables zero-shaped. -/
theorem ZeroShaped_mergeFun (mm res : measurements)
    (hmm : ZeroShaped mm) (hres : ZeroShaped res) : ZeroShaped (mergeFun mm res) := by
  intro h hh
  unfold mergeFun
  rw [hres h hh]
  exact hmm h hh

/-- Every `measurements.Add` occupies bucket 0. -/
theorem Add_zero_ne_none (t : measurements) (name : List Nat) (v : Int) :
    measurements.Add t name v 0 ≠ none := by
  unfold measurements.Add
  rw [namehash_eq_zero name, if_pos rfl]
  exact Option.noConfusion

/-- Processing records never vacates bucket 0. -/
theorem processRecords_zero_ne_none :
    ∀ (rs : List (List Nat × Int)) (t : measurements),
      t 0 ≠ none → processRecords t rs 0 ≠ none := by
  intro rs
  induction rs with
  | nil => intro t ht; exact ht
  | cons r rest ih =>
      intro t _
      unfold processRecords at ih ⊢
      rw [List.foldl_cons]
      exact ih _ (Add_zero_ne_none t r.1 r.2)

/-- A worker that processed at least one record occupies bucket 0. -/
theorem processRecords_nonempty_zero (p : List (List Nat × Int)) (hp : p ≠ []) :
    processRecords New p 0 ≠ none := by
  cases p with
  | nil => exact absurd rfl hp
  | cons r rest =>
      unfold processRecords
      rw [List.foldl_cons]
      exact processRecords_zero_ne_none rest _ (Add_zero_ne_none New r.1 r.2)

/-- `measurements.Merge` does not panic when the receiver is zero-shaped
and the merged-in table occupies bucket 0; it then returns the slotwise
merge. -/
theorem Merge_eq_some (mm res : measurements)
    (hmm : ZeroShaped mm) (hres : res 0 ≠ none) :
    measurements.Merge mm res = some (mergeFun mm res) := by
  have hguard : ∀ h ∈ List.range 65535, ¬(mm h ≠ none ∧ res h = none) := by
    intro h _ hc
    by_cases h0 : h = 0
    · subst h0
      exact hres hc.2
    · exact hc.1 (hmm h h0)
  unfold measurements.Merge
  rw [if_pos hguard]

/-- Folding worker tables that each occupy bucket 0 into a zero-shaped
accumulator never panics and computes the pure slotwise fold. -/
theorem foldTables_eq_some :
    ∀ (ts : List measurements) (acc : measurements),
      ZeroShaped acc → (∀ t ∈ ts, ZeroShaped t ∧ t 0 ≠ none) →
      ts.foldlM measurements.Merge acc = some (ts.foldl mergeFun acc) := by
  intro ts
  induction ts with
  | nil => intro acc _ _; rfl
  | cons t rest ih =>
      intro acc hacc hts
      have ht := hts t (List.mem_cons_self t rest)
      rw [List.foldlM_cons, Merge_eq_some acc t hacc ht.2]
      rw [List.foldl_cons]
      have hrest : ∀ u ∈ rest, ZeroShaped u ∧ u 0 ≠ none :=
        fun u hu => hts u (List.mem_cons_of_mem t hu)
      simpa using ih (mergeFun acc t) (ZeroShaped_mergeFun acc t hacc ht.1) hrest

/-- C1 counterexample: a worker assigned no chunk hands the freshly created
all-nil table to the collector; merging it in after a non-empty worker
result dereferences the nil bucket 0 of the empty table and panics, so the
program does not yield the per-key statistics at all — even though the
single-table run of the same records computes them. -/
theorem C1_empty_worker_counterexample :
    foldTables ([[([65], 1)], []].map (fun p => processRecords New p)) = none ∧
    statsOfName (processRecords New [([65], 1)]) [65] = some ⟨1, 1, 1, 1⟩ := by
  constructor
  · have ht1 : processRecords New [([65], 1)] 0 ≠ none :=
      processRecords_nonempty_zero [([65], 1)] (by simp)
    obtain ⟨b, hb⟩ := Option.ne_none_iff_exists'.mp ht1
    have hacc0 : mergeFun New (processRecords New [([65], 1)]) 0 = some b := by
      unfold mergeFun
      rw [hb]
      rfl
    have hneg : ¬ ∀ h ∈ List.range 65535,
        ¬(mergeFun New (processRecords New [([65], 1)]) h ≠ none ∧
          (processRecords New ([] : List (List Nat × Int))) h = none) := by
      intro hall
      refine hall 0 (List.mem_range.mpr (by norm_num)) ⟨?_, rfl⟩
      rw [hacc0]
      exact Option.noConfusion
    have hbind : ∀ (x : measurements) (f : measurements → Option measurements),
        (some x >>= f) = f x := fun _ _ => rfl
    show List.foldlM measurements.Merge New
        [processRecords New [([65], 1)], processRecords New []] = none
    rw [List.foldlM_cons, Merge_eq_some New _ ZeroShaped_New ht1, hbind,
      List.foldlM_cons]
    have hstep : measurements.Merge (mergeFun New (processRecords New [([65], 1)]))
        (processRecords New []) = none := by
      unfold measurements.Merge
      rw [if_neg hneg]
    rw [hstep]
    rfl
  · decide

/-- C1 (amended): for every record multiset and every partition of it into
worker record lists in which every worker processed at least one record,
the collector's fold of the per-worker tables with `measurements.Merge`
panics nowhere and yields, for every key, exactly the statistics obtained
by processing all records into a single table — the final per-key result
is independent of partitioning and of merge order (`oMerge` over
`Stats.merge` being the commutative, associative combine underlying
`measurement.Merge`).  A worker with no records hands the all-nil table to
the collector, whose `Merge` then panics (see the counterexample). -/
theorem C1_partition_independence :
    ∀ (recs : List (List Nat × Int)) (parts : List (List (List Nat × Int))),
      parts.flatten.Perm recs → (∀ p ∈ parts, p ≠ []) →
      ∃ final : measurements,
        foldTables (parts.map (fun p => processRecords New p)) = some final ∧
        ∀ name : List Nat,
          statsOfName final name = statsOfName (processRecords New recs) name := by
  intro recs parts hperm hne
  have hshape : ∀ t ∈ parts.map (fun p => processRecords New p),
      ZeroShaped t ∧ t 0 ≠ none := by
    intro t ht
    obtain ⟨p, hp, rfl⟩ := List.mem_map.mp ht
    exact ⟨ZeroShaped_processRecords p New ZeroShaped_New,
      processRecords_nonempty_zero p (hne p hp)⟩
  refine ⟨(parts.map (fun p => processRecords New p)).foldl mergeFun New,
    foldTables_eq_some _ New ZeroShaped_New hshape, ?_⟩
  intro name
  unfold statsOfName
  have hwf : ∀ t ∈ parts.map (fun p => processRecords New p), WFTable t := by
    intro t ht
    obtain ⟨p, hp, rfl⟩ := List.mem_map.mp ht
    exact WF_processRecords p New WF_New
  rw [statAt_foldMerge (namehash name) (fnv64a name) _ New hwf, statAt_New,
    oMerge_none_left, List.foldl_map]
  have hfe : (fun (a : Option Stats) (p : List (List Nat × Int)) =>
        oMerge a (statAt (processRecords New p) (namehash name) (fnv64a name))) =
      (fun a p => oMerge a (aggAt p (namehash name) (fnv64a name))) := by
    funext a p
    rw [statAt_processRecords, statAt_New, oMerge_none_left]
  rw [hfe, ← aggAt_flatten, aggAt_perm _ _ _ _ hperm, statAt_processRecords,
    statAt_New, oMerge_none_left]

/-- Witness for the amended C1: three records over two keys, split across
two non-empty workers in a different order, merge without panicking and
agree with single-table processing on every key. -/
theorem C1_partition_independence_witness :
    ∃ final : measurements,
      foldTables ([[([66], -55)], [([65], 100), ([65], 200)]].map
        (fun p => processRecords New p)) = some final ∧
      ∀ name : List Nat,
        statsOfName final name =
          statsOfName (processRecords New [([65], 100), ([66], -55), ([65], 200)]) name :=
  C1_partition_independence [([65], 100), ([66], -55), ([65], 200)]
    [[([66], -55)], [([65], 100), ([65], 200)]] (by decide) (by decide)

/-- C5 (amended): `measurements.Add` treats a key as absent exactly when no
entry with the key's 64-bit FNV-1a hash is stored in its bucket; in that
case it inserts min=max=sum=value, count=1, otherwise it widens min/max,
adds to sum and increments count of the hash-matching entry; and the
per-key result is invariant under permutation of the added values. -/
theorem C5_update_amended :
    ∀ (t : measurements) (name : List Nat) (v : Int),
      (statsOfName t name = none →
        statsOfName (measurements.Add t name v) name = some ⟨v, v, v, 1⟩) ∧
      (∀ s : Stats, statsOfName t name = some s →
        statsOfName (measurements.Add t name v) name =
          some ⟨Min.min s.min v, Max.max s.max v, s.sum + v, s.count + 1⟩) ∧
      (∀ vs vs' : List Int, vs.Perm vs' →
        statsOfName (vs.foldl (fun tt w => measurements.Add tt name w) t) name =
          statsOfName (vs'.foldl (fun tt w => measurements.Add tt name w) t) name) := by
  intro t name v
  refine ⟨?_, ?_, ?_⟩
  · intro h0
    unfold statsOfName at h0 ⊢
    rw [statAt_Add, if_pos ⟨rfl, rfl⟩, h0, oMerge_none_left]
    rfl
  · intro s hs
    unfold statsOfName at hs ⊢
    rw [statAt_Add, if_pos ⟨rfl, rfl⟩, hs]
    simp [oMerge, Stats.merge, singleStat]
  · intro vs vs' hperm
    have key : ∀ ws : List Int,
        ws.foldl (fun tt w => measurements.Add tt name w) t =
          processRecords t (ws.map (fun w => (name, w))) := by
      intro ws
      unfold processRecords
      rw [List.foldl_map]
    rw [key vs, key vs']
    unfold statsOfName
    rw [statAt_processRecords, statAt_processRecords,
      aggAt_perm _ _ _ _ (hperm.map (fun w => (name, w)))]

/-- Witness for the amended C5: inserting into an empty table. -/
theorem C5_update_amended_witness :
    statsOfName (measurements.Add New [65] 5) [65] = some ⟨5, 5, 5, 1⟩ :=
  (C5_update_amended New [65] 5).1 (by decide)
